import Mathlib

/-! Expression engine of `src/main.cc`.

A shallow embedding of the value type, the expression nodes
(`Constant`, `Addition`, `ExpressionCache`), the handle store, the
dependency multimaps, `DirtyFinder` and `EvalChange`, followed by the
properties established about them.

Conventions of the embedding

* `double` is kept abstract: the program only adds doubles and prints them,
  so the embedding is parametric in a type `D` carrying these two operations
  (`DoubleOps`).  Concrete scenarios instantiate `D` with `Int`, which stands
  for the integer-valued doubles (on which the addition of the scenario's
  small numbers is exact).
* Objects reached through `Expression*` live in a heap, a list of nodes; a
  pointer is an index into it.  `eval` recurses through pointers, so it takes
  fuel; the theorems show that a structure without pointer cycles needs only
  finitely much of it.
* A `std::unordered_multimap` is the multiset of its entries, which fixes no
  iteration order; `equal_range` is the sub-multiset of the entries with the
  given key.  The `std::unordered_set` of `DirtyFinder` is a list without
  repetition.
* Undefined behaviour (the use of an invalidated iterator) is the result
  `none`.
-/

namespace Excel

/-! ## Value -/

/-- The two operations of `double` that the program uses: `operator+` and
`std::to_string`. -/
class DoubleOps (D : Type) where
  /-- Addition of two doubles. -/
  add : D → D → D
  /-- The rendering `std::to_string(double)`. -/
  to_string : D → String

/-- The variant `std::variant<double, std::string, bool>` held by a `Value`:
alternative 0 is the number, alternative 1 the text, alternative 2 the
boolean. -/
inductive Value (D : Type) where
  | number (d : D)
  | text (s : String)
  | boolean (b : Bool)
  deriving DecidableEq

namespace Value

variable {D : Type}

/-- The alternative held, `value.index()`. -/
def index : Value D → Nat
  | number _ => 0
  | text _ => 1
  | boolean _ => 2

/-- Default constructor `Value() : value("")`: the variant is initialised from
the string literal, and its converting constructor selects the `std::string`
alternative (the conversion of a pointer to `bool` is narrowing and leaves
the `bool` alternative out). -/
def default : Value D := text ""

/-- The constructor of `Value` that overload resolution selects for the
argument `""`, a `const char*` after array-to-pointer conversion: `Value(bool)`
by a standard conversion (a non-null pointer converts to `true`), which is
preferred to `Value(const std::string&)` and `Value(std::string&&)`, both of
which need the user-defined conversion to `std::string`; `Value(double)` is
not viable. -/
def ofStringLiteral : Value D := boolean true

/-- Method `Value::toString`. -/
def toString [DoubleOps D] : Value D → String
  | number d => DoubleOps.to_string d
  | text s => s
  | boolean b => if b then "TRUE" else "FALSE"

/-- Method `Value::operator+`: numbers are added, texts concatenated, and on every
other pairing the left operand is returned. -/
def add [DoubleOps D] : Value D → Value D → Value D
  | number a, number b => number (DoubleOps.add a b)
  | text s, text t => text (s ++ t)
  | lhs, _ => lhs

end Value

/-! ## Expression nodes in a heap -/

/-- An `Expression*`: the index of the object in the heap. -/
abbrev Ptr := Nat

/-- The three concrete classes derived from `Expression`, with their data
members. -/
inductive Node (D : Type) where
  /-- Class `Constant`, member `value`. -/
  | constant (value : Value D)
  /-- Class `Addition`, members `l` and `r`. -/
  | addition (l r : Ptr)
  /-- Class `ExpressionCache`, member `expression` of `UnaryExpression` and
  members `cachedValue`, `isDirty`. -/
  | cache (expression : Ptr) (cachedValue : Value D) (isDirty : Bool)
  deriving DecidableEq

/-- The objects allocated so far. -/
abbrev Heap (D : Type) := List (Node D)

namespace Node

variable {D : Type}

/-- Constructor `Constant(Value value)`. -/
def newConstant (value : Value D) : Node D := constant value

/-- Constructor `Constant() : value("")`: the member `value`, of class
`Value`, is direct-initialised from the string literal through the
constructors of `Value`. -/
def newConstantDefault : Node D := constant Value.ofStringLiteral

/-- Constructor `Addition(Expression* l, Expression* r)`. -/
def newAddition (l r : Ptr) : Node D := addition l r

/-- The pointers held by a node. -/
def operands : Node D → List Ptr
  | constant _ => []
  | addition l r => [l, r]
  | cache e _ _ => [e]

/-- The node with its `cachedValue` replaced by the default value: everything
about a node except what a cache has memoised. -/
def erase : Node D → Node D
  | cache e _ d => cache e Value.default d
  | n => n

end Node

/-- The heap together with a ghost log of the `eval()` calls made so far, the
pointer of the receiver of each call in call order (the test counter of
evaluations). -/
structure State (D : Type) where
  heap : Heap D
  evals : List Ptr
  deriving DecidableEq

variable {D : Type}

/-- The assignment `cachedValue = v` executed by the cache at `p`. -/
def storeCached (h : Heap D) (p : Ptr) (v : Value D) : Heap D :=
  match h[p]? with
  | some (Node.cache e _ d) => h.set p (Node.cache e v d)
  | _ => h

/-- The virtual call `p->eval()`.

* `Constant::eval` returns `value`.
* `Addition::eval` returns `l->eval() + r->eval()` (the left operand is
  evaluated first here).
* `ExpressionCache::eval` assigns `cachedValue = expression->eval()` when
  `isDirty` holds and returns `cachedValue`; it does not write `isDirty`.

`none` stands for running out of fuel or following a pointer to no object. -/
def eval [DoubleOps D] : Nat → State D → Ptr → Option (Value D × State D)
  | 0, _, _ => none
  | fuel + 1, s, p =>
    match s.heap[p]? with
    | none => none
    | some (Node.constant value) => some (value, { s with evals := s.evals ++ [p] })
    | some (Node.addition l r) =>
      match eval fuel { s with evals := s.evals ++ [p] } l with
      | none => none
      | some (vl, s1) =>
        match eval fuel s1 r with
        | none => none
        | some (vr, s2) => some (vl.add vr, s2)
    | some (Node.cache expression cachedValue isDirty) =>
      if isDirty then
        match eval fuel { s with evals := s.evals ++ [p] } expression with
        | none => none
        | some (v, s1) => some (v, { s1 with heap := storeCached s1.heap p v })
      else
        some (cachedValue, { s with evals := s.evals ++ [p] })

/-- Method `Constant::setValue`, called on the object at `c`.  The method exists
on `Constant` only; for any other receiver there is no such call and the heap
is left as it is. -/
def setValue (s : State D) (c : Ptr) (value : Value D) : State D :=
  match s.heap[c]? with
  | some (Node.constant _) => { s with heap := s.heap.set c (Node.constant value) }
  | _ => s

/-- Method `Addition::setLeft`, called on the object at `a`: `this->l = value`.
The method exists on `Addition` only. -/
def setLeft (s : State D) (a : Ptr) (value : Ptr) : State D :=
  match s.heap[a]? with
  | some (Node.addition _ r) => { s with heap := s.heap.set a (Node.addition value r) }
  | _ => s

/-- Method `Addition::setRight`, called on the object at `a`: its body is
`this->l = value`, as that of `setLeft`. -/
def setRight (s : State D) (a : Ptr) (value : Ptr) : State D :=
  match s.heap[a]? with
  | some (Node.addition _ r) => { s with heap := s.heap.set a (Node.addition value r) }
  | _ => s

/-- The virtual call `p->dirty()`: the empty body `Expression::dirty` for a
`Constant` and an `Addition`, `isDirty = true` for an `ExpressionCache`. -/
def dirty (s : State D) (p : Ptr) : State D :=
  match s.heap[p]? with
  | some (Node.cache e cachedValue _) => { s with heap := s.heap.set p (Node.cache e cachedValue true) }
  | _ => s

/-- Cache-free reference value of the node at `p` over the current constants,
following the words of the specification: a Constant yields its current value,
an Addition the sum of the reference values of its operands, an
ExpressionCache the reference value of its operand. -/
def referenceValue [DoubleOps D] : Nat → Heap D → Ptr → Option (Value D)
  | 0, _, _ => none
  | fuel + 1, h, p =>
    match h[p]? with
    | none => none
    | some (Node.constant value) => some value
    | some (Node.addition l r) =>
      match referenceValue fuel h l, referenceValue fuel h r with
      | some vl, some vr => some (vl.add vr)
      | _, _ => none
    | some (Node.cache expression _ _) => referenceValue fuel h expression

/-! ## Handles and the expression manager -/

/-- An `EId`, an iterator into the list owned by `ExpressionManager`: the
identity of a list element. -/
abbrev EId := Nat

/-- Class `ExpressionManager`: the list `expressions`, each element given with
the identity under which iterators refer to it and the `Expression*` it
holds. -/
structure ExpressionManager where
  expressions : List (EId × Ptr)
  deriving DecidableEq

namespace ExpressionManager

/-- The identity of a list element created next: one that no element of the
list has. -/
def fresh (m : ExpressionManager) : EId :=
  (m.expressions.map Prod.fst).foldr (fun a b => max (a + 1) b) 0

/-- Method `ExpressionManager::add`: `push_back` and the iterator to the new
last element. -/
def add (m : ExpressionManager) (e : Ptr) : EId × ExpressionManager :=
  (m.fresh, { expressions := m.expressions ++ [(m.fresh, e)] })

/-- Method `ExpressionManager::remove`: `expressions.erase(id)`. -/
def remove (m : ExpressionManager) (id : EId) : ExpressionManager :=
  { expressions := m.expressions.filter (fun x => x.1 != id) }

/-- The dereference `**id` of a handle: the `Expression*` of the element, if
the element is in the list. -/
def deref (m : ExpressionManager) (id : EId) : Option Ptr :=
  (m.expressions.find? (fun x => x.1 == id)).map Prod.snd

end ExpressionManager

/-! ## Dependencies -/

/-- The range `equal_range(key)` of a multimap: its entries with that key. -/
def equal_range (m : Multiset (EId × EId)) (key : EId) : Multiset (EId × EId) :=
  m.filter (fun x => x.1 = key)

/-- Class `Dependencies`: the multimaps `edges` and `edgesBack`. -/
structure Dependencies where
  edges : Multiset (EId × EId)
  edgesBack : Multiset (EId × EId)
  deriving DecidableEq

namespace Dependencies

/-- A default-constructed `Dependencies`. -/
def empty : Dependencies := { edges := 0, edgesBack := 0 }

/-- Method `Dependencies::add`: `edgesBack.insert({from, to})` and
`edges.insert({from, to})`. -/
def add (g : Dependencies) (from' to' : EId) : Dependencies :=
  { edgesBack := (from', to') ::ₘ g.edgesBack, edges := (from', to') ::ₘ g.edges }

/-- One loop of `Dependencies::remove` over `m.equal_range(key)`, whose body
erases the entry at `it` when `it->second == second` and whose step is `it++`.
When no entry of the range has the mapped value `second` the loop ends with
the multimap as it was.  Otherwise the loop erases such an entry and then
increments the iterator that the erasure has invalidated: the behaviour is
undefined, `none`. -/
def eraseLoop (m : Multiset (EId × EId)) (key second : EId) : Option (Multiset (EId × EId)) :=
  if second ∈ (equal_range m key).map Prod.snd then none else some m

/-- Method `Dependencies::remove`: the loop over `edges.equal_range(from)` for
the entries with `second == to`, then the loop over
`edgesBack.equal_range(to)` for the entries with `second == from`. -/
def remove (g : Dependencies) (from' to' : EId) : Option Dependencies :=
  match eraseLoop g.edges from' to' with
  | none => none
  | some edges =>
    match eraseLoop g.edgesBack to' from' with
    | none => none
    | some edgesBack => some { edges := edges, edgesBack := edgesBack }

/-- The mapped values between `begin(from)` and `end(from)`: what is listed
as the dependencies of `from`. -/
def dependenciesOf (g : Dependencies) (from' : EId) : Multiset EId :=
  (equal_range g.edges from').map Prod.snd

/-- The mapped values between `beginBack(from)` and `endBack(from)`: what is
listed as the dependents of `from`. -/
def dependentsOf (g : Dependencies) (from' : EId) : Multiset EId :=
  (equal_range g.edgesBack from').map Prod.snd

end Dependencies

/-! ## DirtyFinder and EvalChange -/

/-- Class `DirtyFinder`: the referenced `dependencies` and the set `dirty`. -/
structure DirtyFinder where
  dependencies : Dependencies
  dirty : List EId
  deriving DecidableEq

namespace DirtyFinder

/-- Constructor `DirtyFinder(Dependencies&)`: `dirty({})`. -/
def new (dependencies : Dependencies) : DirtyFinder :=
  { dependencies := dependencies, dirty := [] }

/-- Method `DirtyFinder::Eval(EId id)`: it returns at once when
`dirty.find(id) == dirty.end()`, that is when `id` is not in `dirty`;
otherwise it inserts `id`, and the loop that follows has an empty body. -/
def Eval (f : DirtyFinder) (id : EId) : DirtyFinder :=
  if id ∉ f.dirty then f
  else { f with dirty := if id ∈ f.dirty then f.dirty else f.dirty ++ [id] }

/-- Method `DirtyFinder::Eval(It begin, It end)`: `Eval` on each handle of the
range in turn. -/
def EvalRange (f : DirtyFinder) (ids : List EId) : DirtyFinder :=
  ids.foldl Eval f

/-- The handles between `begin()` and `end()`: the affected set. -/
def affected (f : DirtyFinder) : List EId := f.dirty

end DirtyFinder

/-- Method `EvalChange::change`: a `DirtyFinder` is run over the changed
handles, then `eval()` is called on the expression of every handle of its
`dirty` set and the returned value discarded. -/
def change [DoubleOps D] (fuel : Nat) (dependencies : Dependencies) (m : ExpressionManager)
    (ids : List EId) (s : State D) : Option (State D) :=
  ((DirtyFinder.new dependencies).EvalRange ids).affected.foldlM
    (fun s id =>
      match m.deref id with
      | none => none
      | some p => (eval fuel s p).map Prod.snd) s

/-! ## Predicates and call sequences used in the statements -/

namespace Node

/-- Whether the node is an `ExpressionCache`. -/
def isCache : Node D → Bool
  | cache _ _ _ => true
  | _ => false

/-- The flag `isDirty` of a cache; `true` for a node that has no such flag. -/
def dirtyFlag : Node D → Bool
  | cache _ _ d => d
  | _ => true

end Node

/-- Every `ExpressionCache` of the heap is in the Dirty state. -/
def AllDirty (h : Heap D) : Prop := ∀ n ∈ h, n.dirtyFlag = true

instance (h : Heap D) : Decidable (AllDirty h) := by
  unfold AllDirty; infer_instance

/-- The pointers held by the object at `p`. -/
def operandsAt (h : Heap D) (p : Ptr) : List Ptr :=
  match h[p]? with
  | some n => n.operands
  | none => []

/-- The structure has no pointer cycle and no dangling pointer: every pointer
held by an object leads to an object of the heap of strictly smaller rank. -/
def Acyclic (rank : Ptr → Nat) (h : Heap D) : Prop :=
  ∀ p, p < h.length → ∀ c ∈ operandsAt h p, c < h.length ∧ rank c < rank p

instance (rank : Ptr → Nat) (h : Heap D) : Decidable (Acyclic rank h) := by
  unfold Acyclic; infer_instance

/-- The object at `q` is reached from the object at `p` by following operand
pointers, zero or more times. -/
inductive Reach (h : Heap D) : Ptr → Ptr → Prop where
  | refl (p : Ptr) : Reach h p p
  | step {p c q : Ptr} : c ∈ operandsAt h p → Reach h c q → Reach h p q

/-- Two heaps that differ at most in the `cachedValue` of their caches. -/
def SameCore (h h' : Heap D) : Prop := h'.map Node.erase = h.map Node.erase

/-- One call made by a client of the engine. -/
inductive Call (D : Type) where
  | setValue (c : Ptr) (value : Value D)
  | dirty (p : Ptr)
  | eval (p : Ptr)
  | change (ids : List EId)

/-- The pointer that a call evaluates directly, if it is an `eval()` call. -/
def Call.evalTarget : Call D → Option Ptr
  | Call.eval p => some p
  | _ => none

/-- The state after one call; `none` as for `eval`. -/
def Call.run [DoubleOps D] (fuel : Nat) (dependencies : Dependencies) (m : ExpressionManager)
    (s : State D) : Call D → Option (State D)
  | Call.setValue c value => some (Excel.setValue s c value)
  | Call.dirty p => some (Excel.dirty s p)
  | Call.eval p => (Excel.eval fuel s p).map Prod.snd
  | Call.change ids => Excel.change fuel dependencies m ids s

/-- The state after a sequence of calls. -/
def runCalls [DoubleOps D] (fuel : Nat) (dependencies : Dependencies) (m : ExpressionManager)
    (s : State D) (calls : List (Call D)) : Option (State D) :=
  calls.foldlM (fun s c => c.run fuel dependencies m s) s

/-- The forward index lists `b` among the dependencies of `a`. -/
def Dependencies.Edge (g : Dependencies) (a b : EId) : Prop := (a, b) ∈ g.edges

instance (g : Dependencies) (a b : EId) : Decidable (g.Edge a b) := by
  unfold Dependencies.Edge; infer_instance

/-- Handle `b` is reachable from `a` along dependency edges, in zero or more
steps. -/
def Dependencies.Reaches (g : Dependencies) (a b : EId) : Prop :=
  Relation.ReflTransGen g.Edge a b

/-- The edge set has a cycle through `a`. -/
def Dependencies.OnCycle (g : Dependencies) (a : EId) : Prop :=
  Relation.TransGen g.Edge a a

/-! ## The instance for scenarios -/

/-- The integer-valued doubles: `operator+` is the integer sum, and
`std::to_string` prints as `printf` does with `%f`, the digits followed by six
decimals. -/
instance : DoubleOps Int where
  add := fun a b => a + b
  to_string := fun n => toString n ++ ".000000"

/-! ## Scenario data -/

/-- The objects of the end-to-end scenario: the Constants `x = 5` and `y = 3`,
the `Addition` of the two, and an `ExpressionCache` `s` over the addition in
the state that its member initialisers give. -/
def scenarioHeap : Heap Int :=
  [Node.newConstant (Value.number 5), Node.newConstant (Value.number 3),
   Node.newAddition 0 1, Node.cache 2 Value.default true]

/-- The handles of the scenario, in the order in which the objects were
added to the manager. -/
def scenarioManager : ExpressionManager :=
  ((((ExpressionManager.mk []).add 0).2.add 1).2.add 2).2.add 3 |>.2

/-- The edges of the scenario: the addition depends on `x` and on `y`, the
cache on the addition. -/
def scenarioDependencies : Dependencies :=
  ((Dependencies.empty.add 2 0).add 2 1).add 3 2

/-! ## The program `main` -/

/-- The objects that `main` creates: `Constant(Value(5.0))`,
`Constant(Value(3.0))` and the `Addition` of the two. -/
def mainHeap : Heap Int :=
  [Node.newConstant (Value.number 5), Node.newConstant (Value.number 3),
   Node.newAddition 0 1]

/-- The manager of `main` after its three `add` calls, which return `id1`,
`id2` and `id3`. -/
def mainManager : ExpressionManager :=
  (((ExpressionManager.mk []).add 0).2.add 1).2.add 2 |>.2

/-- The handle `id3` of `main`. -/
def mainId3 : EId := ((((ExpressionManager.mk []).add 0).2.add 1).2.add 2).1

/-- The dependencies of `main`: `add(id3, id1)` and `add(id3, id2)`. -/
def mainDependencies : Dependencies :=
  (Dependencies.empty.add 2 0).add 2 1

/-- The string that `main` writes, `(**id3)->eval().toString()`. -/
def mainOutput : Option String :=
  (mainManager.deref mainId3).bind fun p =>
    (eval 2 ⟨mainHeap, []⟩ p).map fun r => r.1.toString

/-- The structure holds Constant and Addition objects only, the objects for
which the source has constructors (`ExpressionCache` declares none, and its
implicit default constructor is deleted, its base class having none). -/
def Constructible (h : Heap D) : Prop :=
  ∀ n ∈ h, n.isCache = false

instance (h : Heap D) : Decidable (Constructible h) := by
  unfold Constructible; infer_instance

/-! ## Lemmas on the heap -/

theorem SameCore.refl (h : Heap D) : SameCore h h := rfl

theorem SameCore.trans {h1 h2 h3 : Heap D} (a : SameCore h1 h2) (b : SameCore h2 h3) :
    SameCore h1 h3 := by
  unfold SameCore at *; rw [b, a]

theorem SameCore.length_eq {h h' : Heap D} (a : SameCore h h') : h'.length = h.length := by
  have := congrArg List.length a
  simpa using this

theorem SameCore.get {h h' : Heap D} (a : SameCore h h') (q : Ptr) :
    (h'[q]?).map Node.erase = (h[q]?).map Node.erase := by
  have := congrArg (fun l => l[q]?) a
  simpa [List.getElem?_map] using this

theorem sameCore_set {h : Heap D} {p : Ptr} {n n' : Node D} (hp : h[p]? = some n)
    (he : n'.erase = n.erase) : SameCore h (h.set p n') := by
  unfold SameCore
  apply List.ext_getElem?
  intro q
  simp only [List.getElem?_map, List.getElem?_set]
  by_cases hq : p = q
  · subst hq
    have hlt : p < h.length := by
      rcases List.getElem?_eq_some.1 hp with ⟨hl, _⟩
      exact hl
    simp [hlt, hp, he]
  · simp [hq]

theorem storeCached_sameCore (h : Heap D) (p : Ptr) (v : Value D) :
    SameCore h (storeCached h p v) := by
  unfold storeCached
  split
  · next e cv d hp => exact sameCore_set hp rfl
  · exact SameCore.refl h

@[simp]
theorem Node.operands_erase (n : Node D) : n.erase.operands = n.operands := by
  cases n <;> rfl

@[simp]
theorem Node.dirtyFlag_erase (n : Node D) : n.erase.dirtyFlag = n.dirtyFlag := by
  cases n <;> rfl

theorem SameCore.operandsAt_eq {h h' : Heap D} (a : SameCore h h') (p : Ptr) :
    operandsAt h' p = operandsAt h p := by
  have hg := a.get p
  unfold operandsAt
  cases hq : h[p]? <;> cases hq' : h'[p]? <;> simp [hq, hq'] at hg ⊢
  rw [← Node.operands_erase, hg, Node.operands_erase]

theorem SameCore.allDirty {h h' : Heap D} (a : SameCore h h') (hd : AllDirty h) :
    AllDirty h' := by
  have key : ∀ l : Heap D, AllDirty l ↔ ∀ m ∈ l.map Node.erase, m.dirtyFlag = true := by
    intro l
    simp [AllDirty]
  rw [key] at hd ⊢
  rw [a]
  exact hd

theorem SameCore.acyclic {h h' : Heap D} (a : SameCore h h') {rank : Ptr → Nat}
    (hr : Acyclic rank h) : Acyclic rank h' := by
  intro p hp c hc
  rw [a.length_eq] at hp ⊢
  rw [a.operandsAt_eq] at hc
  exact hr p hp c hc

theorem SameCore.referenceValue_eq [DoubleOps D] {h h' : Heap D} (a : SameCore h h') :
    ∀ (fuel : Nat) (p : Ptr), referenceValue fuel h' p = referenceValue fuel h p := by
  intro fuel
  induction fuel with
  | zero => intro p; rfl
  | succ fuel ih =>
    intro p
    have hg := a.get p
    unfold referenceValue
    cases hq : h[p]? with
    | none =>
      cases hq' : h'[p]? with
      | none => rfl
      | some n' => simp [hq, hq'] at hg
    | some n =>
      cases hq' : h'[p]? with
      | none => simp [hq, hq'] at hg
      | some n' =>
        simp only [hq, hq', Option.map_some', Option.some.injEq] at hg
        cases n <;> cases n' <;> simp [Node.erase] at hg
        · subst hg; rfl
        · obtain ⟨rfl, rfl⟩ := hg
          simp only [ih]
        · obtain ⟨rfl, rfl⟩ := hg
          simp only [ih]

theorem SameCore.reach {h h' : Heap D} (a : SameCore h h') {p q : Ptr} (r : Reach h p q) :
    Reach h' p q := by
  induction r with
  | refl p => exact Reach.refl p
  | step hc _ ih => exact Reach.step (by rw [a.operandsAt_eq]; exact hc) ih

theorem SameCore.symm {h h' : Heap D} (a : SameCore h h') : SameCore h' h := by
  unfold SameCore at *; exact a.symm

/-! ## Lemmas on `eval` -/

theorem eval_sameCore [DoubleOps D] :
    ∀ (fuel : Nat) (s : State D) (p : Ptr) (v : Value D) (s' : State D),
      eval fuel s p = some (v, s') → SameCore s.heap s'.heap := by
  intro fuel
  induction fuel with
  | zero => intro s p v s' h; simp [eval] at h
  | succ fuel ih =>
    intro s p v s' h
    rw [eval] at h
    split at h
    · simp at h
    · simp only [Option.some.injEq, Prod.mk.injEq] at h
      obtain ⟨_, rfl⟩ := h
      exact SameCore.refl _
    · next l r hp =>
      split at h
      · simp at h
      · next vl s1 h1 =>
        split at h
        · simp at h
        · next vr s2 h2 =>
          simp only [Option.some.injEq, Prod.mk.injEq] at h
          obtain ⟨_, rfl⟩ := h
          exact (ih _ _ _ _ h1).trans (ih _ _ _ _ h2)
    · next e cv d hp =>
      split at h
      · split at h
        · simp at h
        · next v1 s1 h1 =>
          simp only [Option.some.injEq, Prod.mk.injEq] at h
          obtain ⟨_, rfl⟩ := h
          exact (ih _ _ _ _ h1).trans (storeCached_sameCore _ _ _)
      · simp only [Option.some.injEq, Prod.mk.injEq] at h
        obtain ⟨_, rfl⟩ := h
        exact SameCore.refl _

theorem operandsAt_of_get {h : Heap D} {p : Ptr} {n : Node D} (hp : h[p]? = some n) :
    operandsAt h p = n.operands := by
  simp [operandsAt, hp]

theorem AllDirty.flag {h : Heap D} (hd : AllDirty h) {p e : Ptr} {cv : Value D} {d : Bool}
    (hp : h[p]? = some (Node.cache e cv d)) : d = true := by
  have := hd _ (List.getElem?_mem hp)
  simpa [Node.dirtyFlag] using this

/-- On a structure without pointer cycles whose caches are all dirty, `eval`
returns with enough fuel, and what it returns is the reference value. -/
theorem eval_eq_referenceValue [DoubleOps D] (rank : Ptr → Nat) :
    ∀ (fuel : Nat) (s : State D) (p : Ptr), Acyclic rank s.heap → AllDirty s.heap →
      p < s.heap.length → rank p < fuel →
      ∃ v s', eval fuel s p = some (v, s') ∧ referenceValue fuel s.heap p = some v := by
  intro fuel
  induction fuel with
  | zero => intro s p _ _ _ hr; omega
  | succ fuel ih =>
    intro s p hac hd hp hr
    have hget : s.heap[p]? = some s.heap[p] := List.getElem?_eq_getElem hp
    generalize s.heap[p] = n at hget
    have hops := operandsAt_of_get hget
    cases n with
    | constant value =>
      exact ⟨value, { s with evals := s.evals ++ [p] }, by simp [eval, hget],
        by simp [referenceValue, hget]⟩
    | addition l r =>
      have hl := hac p hp l (by simp [hops, Node.operands])
      have hr' := hac p hp r (by simp [hops, Node.operands])
      obtain ⟨vl, s1, e1, r1⟩ :=
        ih { s with evals := s.evals ++ [p] } l hac hd hl.1 (by omega)
      have c1 : SameCore s.heap s1.heap :=
        eval_sameCore _ { s with evals := s.evals ++ [p] } _ _ _ e1
      obtain ⟨vr, s2, e2, r2⟩ :=
        ih s1 r (c1.acyclic hac) (c1.allDirty hd) (by rw [c1.length_eq]; exact hr'.1) (by omega)
      rw [c1.referenceValue_eq] at r2
      simp only at r1
      exact ⟨vl.add vr, s2, by simp [eval, hget, e1, e2], by simp [referenceValue, hget, r1, r2]⟩
    | cache e cv d =>
      have hdt : d = true := hd.flag hget
      subst hdt
      have he := hac p hp e (by simp [hops, Node.operands])
      obtain ⟨v, s1, e1, r1⟩ :=
        ih { s with evals := s.evals ++ [p] } e hac hd he.1 (by omega)
      simp only at r1
      exact ⟨v, { s1 with heap := storeCached s1.heap p v }, by simp [eval, hget, e1],
        by simp [referenceValue, hget, r1]⟩

/-! ## Lemmas on `setValue`, `dirty` and `change` -/

theorem operandsAt_set {h : Heap D} {p : Ptr} {n n' : Node D} (hp : h[p]? = some n)
    (ho : n'.operands = n.operands) (q : Ptr) :
    operandsAt (h.set p n') q = operandsAt h q := by
  unfold operandsAt
  rw [List.getElem?_set]
  by_cases hq : p = q
  · subst hq
    have hlt : p < h.length := (List.getElem?_eq_some.1 hp).1
    simp [hlt, hp, ho]
  · simp [hq]

theorem acyclic_set {rank : Ptr → Nat} {h : Heap D} {p : Ptr} {n n' : Node D}
    (hp : h[p]? = some n) (ho : n'.operands = n.operands) (hr : Acyclic rank h) :
    Acyclic rank (h.set p n') := by
  intro q hq c hc
  rw [List.length_set] at hq ⊢
  rw [operandsAt_set hp ho] at hc
  exact hr q hq c hc

theorem allDirty_set {h : Heap D} {p : Ptr} {n' : Node D} (hd : AllDirty h)
    (hn : n'.dirtyFlag = true) : AllDirty (h.set p n') := by
  intro m hm
  rcases List.mem_or_eq_of_mem_set hm with hm | rfl
  · exact hd m hm
  · exact hn

theorem setValue_length (s : State D) (c : Ptr) (v : Value D) :
    (setValue s c v).heap.length = s.heap.length := by
  unfold setValue; split <;> simp

theorem setValue_acyclic {rank : Ptr → Nat} (s : State D) (c : Ptr) (v : Value D)
    (hr : Acyclic rank s.heap) : Acyclic rank (setValue s c v).heap := by
  unfold setValue; split
  · next hp => exact acyclic_set hp rfl hr
  · exact hr

theorem setValue_allDirty (s : State D) (c : Ptr) (v : Value D) (hd : AllDirty s.heap) :
    AllDirty (setValue s c v).heap := by
  unfold setValue; split
  · exact allDirty_set hd rfl
  · exact hd

theorem dirty_length (s : State D) (p : Ptr) : (dirty s p).heap.length = s.heap.length := by
  unfold dirty; split <;> simp

theorem dirty_acyclic {rank : Ptr → Nat} (s : State D) (p : Ptr)
    (hr : Acyclic rank s.heap) : Acyclic rank (dirty s p).heap := by
  unfold dirty; split
  · next hp => exact acyclic_set hp rfl hr
  · exact hr

theorem dirty_allDirty (s : State D) (p : Ptr) (hd : AllDirty s.heap) :
    AllDirty (dirty s p).heap := by
  unfold dirty; split
  · exact allDirty_set hd rfl
  · exact hd

theorem DirtyFinder.Eval_eq (f : DirtyFinder) (id : EId) : f.Eval id = f := by
  unfold DirtyFinder.Eval
  by_cases h : id ∈ f.dirty <;> simp [h]

theorem DirtyFinder.EvalRange_eq (f : DirtyFinder) (ids : List EId) : f.EvalRange ids = f := by
  unfold DirtyFinder.EvalRange
  induction ids with
  | nil => rfl
  | cons id ids ih => simp [List.foldl_cons, DirtyFinder.Eval_eq, ih]

theorem change_eq [DoubleOps D] (fuel : Nat) (dependencies : Dependencies)
    (m : ExpressionManager) (ids : List EId) (s : State D) :
    change fuel dependencies m ids s = some s := by
  unfold change
  rw [DirtyFinder.EvalRange_eq]
  rfl

/-! ## Evaluation agrees with the reference value -/

/-- C1: on any structure of Constant, Addition and ExpressionCache objects
without pointer cycles, whose caches all start dirty, every finite sequence of
`setValue`, `dirty()`, `eval()` and `EvalChange::change` calls runs to a state
in which `eval()` on any object returns, and returns the cache-free reference
value over the current constants. -/
theorem eval_after_calls_eq_referenceValue [DoubleOps D] (rank : Ptr → Nat) (fuel : Nat)
    (dependencies : Dependencies) (m : ExpressionManager) (calls : List (Call D))
    (s0 : State D)
    (hacyclic : Acyclic rank s0.heap) (hdirty : AllDirty s0.heap)
    (hfuel : ∀ p, p < s0.heap.length → rank p < fuel)
    (hcalls : ∀ c ∈ calls, ∀ p, c.evalTarget = some p → p < s0.heap.length) :
    ∃ s, runCalls fuel dependencies m s0 calls = some s ∧
      ∀ p, p < s.heap.length →
        ∃ v s', eval fuel s p = some (v, s') ∧ referenceValue fuel s.heap p = some v := by
  suffices key : ∃ s, runCalls fuel dependencies m s0 calls = some s ∧
      Acyclic rank s.heap ∧ AllDirty s.heap ∧ s.heap.length = s0.heap.length by
    obtain ⟨s, hs, hac, hd, hlen⟩ := key
    refine ⟨s, hs, fun p hp => ?_⟩
    exact eval_eq_referenceValue rank fuel s p hac hd hp (hfuel p (hlen ▸ hp))
  induction calls generalizing s0 with
  | nil => exact ⟨s0, rfl, hacyclic, hdirty, rfl⟩
  | cons c calls ih =>
    have step : ∃ s1, c.run fuel dependencies m s0 = some s1 ∧
        Acyclic rank s1.heap ∧ AllDirty s1.heap ∧ s1.heap.length = s0.heap.length := by
      cases c with
      | setValue c v =>
        exact ⟨_, rfl, setValue_acyclic _ _ _ hacyclic, setValue_allDirty _ _ _ hdirty,
          setValue_length _ _ _⟩
      | dirty p =>
        exact ⟨_, rfl, dirty_acyclic _ _ hacyclic, dirty_allDirty _ _ hdirty,
          dirty_length _ _⟩
      | eval p =>
        have hp : p < s0.heap.length := hcalls _ (List.mem_cons_self _ _) p rfl
        obtain ⟨v, s1, e1, _⟩ :=
          eval_eq_referenceValue rank fuel s0 p hacyclic hdirty hp (hfuel p hp)
        have c1 := eval_sameCore _ _ _ _ _ e1
        exact ⟨s1, by simp [Call.run, e1], c1.acyclic hacyclic, c1.allDirty hdirty,
          c1.length_eq⟩
      | change ids =>
        exact ⟨s0, change_eq _ _ _ _ _, hacyclic, hdirty, rfl⟩
    obtain ⟨s1, r1, hac1, hd1, hlen1⟩ := step
    obtain ⟨s, hs, hac, hd, hlen⟩ := ih s1 hac1 hd1 (by rw [hlen1]; exact hfuel)
      (by rw [hlen1]; exact fun c hc => hcalls c (List.mem_cons_of_mem _ hc))
    exact ⟨s, by simp [runCalls, List.foldlM_cons, r1]; exact hs, hac, hd, hlen.trans hlen1⟩

/-- C1, at the scenario: after evaluating the cache, setting `x` to 10,
notifying the change, invalidating and evaluating again, every object
evaluates to its reference value. -/
theorem eval_after_calls_eq_referenceValue_witness :
    Acyclic (fun p => p) scenarioHeap ∧ AllDirty scenarioHeap ∧
    ∃ s, runCalls 4 scenarioDependencies scenarioManager ⟨scenarioHeap, []⟩
        [Call.eval 3, Call.setValue 0 (Value.number 10), Call.change [0], Call.dirty 3,
         Call.eval 3] = some s ∧
      ∀ p, p < s.heap.length →
        ∃ v s', eval 4 s p = some (v, s') ∧ referenceValue 4 s.heap p = some v :=
  ⟨by decide, by decide,
    eval_after_calls_eq_referenceValue (fun p => p) 4 scenarioDependencies scenarioManager _
      ⟨scenarioHeap, []⟩ (by decide) (by decide) (by decide) (by decide)⟩

/-! ## DirtyFinder -/

/-- C2, evaluated on the scenario: `x` (handle 0) has the addition (handle 2)
and through it the cache (handle 3) as dependents, and the affected set that
`DirtyFinder` computes for the changed handle `x` is empty; not even `x` is in
it. -/
theorem dirtyFinder_affected_scenario :
    scenarioDependencies.Edge 2 0 ∧ scenarioDependencies.Edge 3 2 ∧
    ((DirtyFinder.new scenarioDependencies).EvalRange [0]).affected = [] ∧
    0 ∉ ((DirtyFinder.new scenarioDependencies).EvalRange [0]).affected := by
  decide

/-! ## Dependencies -/

/-- C3, evaluated after `add(0, 1)` on the empty graph: handle 1 is listed
among the dependencies of 0, but 0 is not listed among the dependents of 1;
the backward index lists 1 under 0 instead. -/
theorem add_dependentsOf_empty :
    (Dependencies.empty.add 0 1).dependenciesOf 0 = {1} ∧
    (Dependencies.empty.add 0 1).dependentsOf 1 = 0 ∧
    (Dependencies.empty.add 0 1).dependentsOf 0 = {1} := by
  decide

/-- C4 as stated fails: after `add(0, 1)` handle 1 is reached from 0, yet
`add(1, 0)` changes both indices, and the edge set then holds both `(0, 1)`
and `(1, 0)`. -/
theorem add_reverse_edge_not_rejected :
    (Dependencies.empty.add 0 1).Edge 0 1 ∧
    ((Dependencies.empty.add 0 1).add 1 0).edges ≠ (Dependencies.empty.add 0 1).edges ∧
    ((Dependencies.empty.add 0 1).add 1 0).edgesBack ≠
      (Dependencies.empty.add 0 1).edgesBack ∧
    ((Dependencies.empty.add 0 1).add 1 0).Edge 0 1 ∧
    ((Dependencies.empty.add 0 1).add 1 0).Edge 1 0 := by
  decide

theorem Dependencies.Edge.add {g : Dependencies} {a b : EId} (h : g.Edge a b) (x y : EId) :
    (g.add x y).Edge a b := by
  unfold Dependencies.Edge at *
  simp [Dependencies.add, h]

/-- C4, amended: `add` makes no cycle check and has no failure result.  For
every state and all handles `D` and `P` with `D` reachable from `P` (or
`D = P`), after `add(D, P)` the forward index lists `P` among the
dependencies of `D`, it lists every edge it listed before, and the edge set
has a cycle through `D`. -/
theorem add_inserts_and_closes_cycle (g : Dependencies) (D P : EId) (h : g.Reaches P D) :
    (g.add D P).Edge D P ∧
    (∀ a b : EId, g.Edge a b → (g.add D P).Edge a b) ∧
    (g.add D P).OnCycle D := by
  have hnew : (g.add D P).Edge D P := by
    unfold Dependencies.Edge
    simp [Dependencies.add]
  refine ⟨hnew, fun a b hab => Dependencies.Edge.add hab D P, ?_⟩
  have hold : Relation.ReflTransGen (g.add D P).Edge P D :=
    Relation.ReflTransGen.mono (fun a b hab => Dependencies.Edge.add hab D P) h
  exact Relation.TransGen.head' hnew hold

/-- C4, amended, at `add(0, 1)` followed by `add(1, 0)`. -/
theorem add_inserts_and_closes_cycle_witness :
    (Dependencies.empty.add 0 1).Reaches 0 1 ∧
    ((Dependencies.empty.add 0 1).add 1 0).Edge 1 0 ∧
    (∀ a b : EId, (Dependencies.empty.add 0 1).Edge a b →
      ((Dependencies.empty.add 0 1).add 1 0).Edge a b) ∧
    ((Dependencies.empty.add 0 1).add 1 0).OnCycle 1 :=
  have hreach : (Dependencies.empty.add 0 1).Reaches 0 1 :=
    Relation.ReflTransGen.single (by decide)
  ⟨hreach, add_inserts_and_closes_cycle (Dependencies.empty.add 0 1) 1 0 hreach⟩

/-- C10, evaluated on the empty graph: after `add(0, 1)` the call
`remove(0, 1)` finds the entry in `edges.equal_range(0)`, erases it and
increments the erased iterator; it does not return the empty graph, its
behaviour is undefined. -/
theorem add_remove_empty :
    ¬ Dependencies.empty.Edge 0 1 ∧
    (Dependencies.empty.add 0 1).remove 0 1 = none ∧
    (Dependencies.empty.add 0 1).remove 0 1 ≠ some Dependencies.empty := by
  decide

/-! ## The end-to-end scenario -/

theorem storeCached_get_ne (h : Heap D) {p q : Ptr} (v : Value D) (hne : q ≠ p) :
    (storeCached h p v)[q]? = h[q]? := by
  unfold storeCached
  split
  · rw [List.getElem?_set]
    simp [Ne.symm hne]
  · rfl

theorem eval_total [DoubleOps D] (rank : Ptr → Nat) :
    ∀ (fuel : Nat) (s : State D) (p : Ptr), Acyclic rank s.heap →
      p < s.heap.length → rank p < fuel → ∃ v s', eval fuel s p = some (v, s') := by
  intro fuel
  induction fuel with
  | zero => intro s p _ _ hr; omega
  | succ fuel ih =>
    intro s p hac hp hr
    have hget : s.heap[p]? = some s.heap[p] := List.getElem?_eq_getElem hp
    generalize s.heap[p] = n at hget
    have hops := operandsAt_of_get hget
    cases n with
    | constant value =>
      exact ⟨value, { s with evals := s.evals ++ [p] }, by simp [eval, hget]⟩
    | addition l r =>
      have hl := hac p hp l (by simp [hops, Node.operands])
      have hr' := hac p hp r (by simp [hops, Node.operands])
      obtain ⟨vl, s1, e1⟩ := ih { s with evals := s.evals ++ [p] } l hac hl.1 (by omega)
      have c1 : SameCore s.heap s1.heap :=
        eval_sameCore _ { s with evals := s.evals ++ [p] } _ _ _ e1
      obtain ⟨vr, s2, e2⟩ :=
        ih s1 r (c1.acyclic hac) (by rw [c1.length_eq]; exact hr'.1) (by omega)
      exact ⟨vl.add vr, s2, by simp [eval, hget, e1, e2]⟩
    | cache e cv d =>
      cases d with
      | false => exact ⟨cv, { s with evals := s.evals ++ [p] }, by simp [eval, hget]⟩
      | true =>
        have he := hac p hp e (by simp [hops, Node.operands])
        obtain ⟨v, s1, e1⟩ := ih { s with evals := s.evals ++ [p] } e hac he.1 (by omega)
        exact ⟨v, { s1 with heap := storeCached s1.heap p v }, by simp [eval, hget, e1]⟩

theorem eval_unreached [DoubleOps D] :
    ∀ (fuel : Nat) (s : State D) (p : Ptr) (v : Value D) (s' : State D),
      eval fuel s p = some (v, s') → ∀ q, ¬ Reach s.heap p q → s'.heap[q]? = s.heap[q]? := by
  intro fuel
  induction fuel with
  | zero => intro s p v s' h; simp [eval] at h
  | succ fuel ih =>
    intro s p v s' h q hq
    rw [eval] at h
    split at h
    · simp at h
    · simp only [Option.some.injEq, Prod.mk.injEq] at h
      obtain ⟨_, rfl⟩ := h
      rfl
    · next l r hp =>
      have hops := operandsAt_of_get hp
      split at h
      · simp at h
      · next vl s1 h1 =>
        split at h
        · simp at h
        · next vr s2 h2 =>
          simp only [Option.some.injEq, Prod.mk.injEq] at h
          obtain ⟨_, rfl⟩ := h
          have c1 : SameCore s.heap s1.heap :=
            eval_sameCore _ { s with evals := s.evals ++ [p] } _ _ _ h1
          have q1 := ih _ _ _ _ h1 q
            (fun r => hq (Reach.step (by simp [hops, Node.operands]) r))
          have q2 := ih _ _ _ _ h2 q
            (fun r => hq (Reach.step (by simp [hops, Node.operands]) (c1.symm.reach r)))
          rw [q2, q1]
    · next e cv d hp =>
      have hops := operandsAt_of_get hp
      split at h
      · split at h
        · simp at h
        · next v1 s1 h1 =>
          simp only [Option.some.injEq, Prod.mk.injEq] at h
          obtain ⟨_, rfl⟩ := h
          have q1 := ih _ _ _ _ h1 q
            (fun r => hq (Reach.step (by simp [hops, Node.operands]) r))
          have hne : q ≠ p := fun e => hq (e ▸ Reach.refl q)
          simp only
          rw [storeCached_get_ne _ _ hne, q1]
      · simp only [Option.some.injEq, Prod.mk.injEq] at h
        obtain ⟨_, rfl⟩ := h
        rfl

theorem eval_clean_unchanged [DoubleOps D] :
    ∀ (fuel : Nat) (s : State D) (p : Ptr) (v : Value D) (s' : State D),
      eval fuel s p = some (v, s') →
      ∀ (q e : Ptr) (cv : Value D), s.heap[q]? = some (Node.cache e cv false) →
        s'.heap[q]? = some (Node.cache e cv false) := by
  intro fuel
  induction fuel with
  | zero => intro s p v s' h; simp [eval] at h
  | succ fuel ih =>
    intro s p v s' h q e0 cv0 hq
    rw [eval] at h
    split at h
    · simp at h
    · simp only [Option.some.injEq, Prod.mk.injEq] at h
      obtain ⟨_, rfl⟩ := h
      exact hq
    · next l r hp =>
      split at h
      · simp at h
      · next vl s1 h1 =>
        split at h
        · simp at h
        · next vr s2 h2 =>
          simp only [Option.some.injEq, Prod.mk.injEq] at h
          obtain ⟨_, rfl⟩ := h
          exact ih _ _ _ _ h2 q e0 cv0 (ih _ _ _ _ h1 q e0 cv0 hq)
    · next e cv d hp =>
      split at h
      · next hd =>
        split at h
        · simp at h
        · next v1 s1 h1 =>
          simp only [Option.some.injEq, Prod.mk.injEq] at h
          obtain ⟨_, rfl⟩ := h
          have q1 := ih _ _ _ _ h1 q e0 cv0 hq
          have hne : q ≠ p := by
            rintro rfl
            rw [hp] at hq
            simp at hq
            simp [hq.2.2] at hd
          simp only
          rw [storeCached_get_ne _ _ hne, q1]
      · simp only [Option.some.injEq, Prod.mk.injEq] at h
        obtain ⟨_, rfl⟩ := h
        exact hq

/-- On a structure without pointer cycles, `ExpressionCache` objects allowed,
`eval()` on `n` returns, and it changes at most the `cachedValue` of dirty caches reached from
`n` through operand pointers (`n` included).  Every Constant keeps its value,
every Addition its operands, every cache its operand and its `isDirty` flag,
every clean cache its `cachedValue`, and every object not reached from `n` is
the same after the call as before. -/
theorem eval_changes_only_reached_cachedValues [DoubleOps D] (rank : Ptr → Nat) (fuel : Nat)
    (s : State D) (n : Ptr)
    (hacyclic : Acyclic rank s.heap) (hn : n < s.heap.length) (hfuel : rank n < fuel) :
    ∃ v s', eval fuel s n = some (v, s') ∧
      (∀ (q : Ptr) (value : Value D), s.heap[q]? = some (Node.constant value) →
        s'.heap[q]? = some (Node.constant value)) ∧
      (∀ (q l r : Ptr), s.heap[q]? = some (Node.addition l r) →
        s'.heap[q]? = some (Node.addition l r)) ∧
      (∀ (q e : Ptr) (cv : Value D) (d : Bool), s.heap[q]? = some (Node.cache e cv d) →
        ∃ cv', s'.heap[q]? = some (Node.cache e cv' d)) ∧
      (∀ (q e : Ptr) (cv : Value D), s.heap[q]? = some (Node.cache e cv false) →
        s'.heap[q]? = some (Node.cache e cv false)) ∧
      (∀ q : Ptr, ¬ Reach s.heap n q → s'.heap[q]? = s.heap[q]?) := by
  obtain ⟨v, s', he⟩ := eval_total rank fuel s n hacyclic hn hfuel
  have c := eval_sameCore _ _ _ _ _ he
  refine ⟨v, s', he, ?_, ?_, ?_, eval_clean_unchanged _ _ _ _ _ he,
    eval_unreached _ _ _ _ _ he⟩
  · intro q value hq
    have hg := c.get q
    rw [hq] at hg
    cases hq' : s'.heap[q]? with
    | none => simp [hq'] at hg
    | some n' =>
      rw [hq'] at hg
      cases n' <;> simp [Node.erase] at hg
      rw [hg]
  · intro q l r hq
    have hg := c.get q
    rw [hq] at hg
    cases hq' : s'.heap[q]? with
    | none => simp [hq'] at hg
    | some n' =>
      rw [hq'] at hg
      cases n' <;> simp [Node.erase] at hg
      rw [hg.1, hg.2]
  · intro q e cv d hq
    have hg := c.get q
    rw [hq] at hg
    cases hq' : s'.heap[q]? with
    | none => simp [hq'] at hg
    | some n' =>
      rw [hq'] at hg
      cases n' <;> simp [Node.erase] at hg
      rw [hg.1, hg.2]
      exact ⟨_, rfl⟩

theorem Constructible.eq_of_sameCore {h h' : Heap D} (hc : Constructible h)
    (a : SameCore h h') : h' = h := by
  apply List.ext_getElem?
  intro q
  have hg := a.get q
  cases hq : h[q]? with
  | none =>
    cases hq' : h'[q]? with
    | none => rfl
    | some n' => simp [hq, hq'] at hg
  | some n =>
    cases hq' : h'[q]? with
    | none => simp [hq, hq'] at hg
    | some n' =>
      have hn := hc n (List.getElem?_mem hq)
      simp only [hq, hq', Option.map_some', Option.some.injEq] at hg
      cases n <;> cases n' <;> simp [Node.erase, Node.isCache] at hg hn ⊢
      · exact hg
      · exact hg

/-- C9: `dirty()` on a Constant or an Addition changes no state; on an
ExpressionCache it sets `isDirty` to `true` whatever it was, keeps the
operand pointer and `cachedValue`, leaves every other object and the log of
evaluations as they were; and calling it twice gives the state that calling it
once gives. -/
theorem dirty_effect (s : State D) (p : Ptr) :
    (∀ value : Value D, s.heap[p]? = some (Node.constant value) → dirty s p = s) ∧
    (∀ l r : Ptr, s.heap[p]? = some (Node.addition l r) → dirty s p = s) ∧
    (∀ (e : Ptr) (cv : Value D) (d : Bool), s.heap[p]? = some (Node.cache e cv d) →
      (dirty s p).heap[p]? = some (Node.cache e cv true) ∧
      (∀ q : Ptr, q ≠ p → (dirty s p).heap[q]? = s.heap[q]?) ∧
      (dirty s p).heap.length = s.heap.length ∧
      (dirty s p).evals = s.evals) ∧
    dirty (dirty s p) p = dirty s p := by
  refine ⟨?_, ?_, ?_, ?_⟩
  · intro value hp
    simp [dirty, hp]
  · intro l r hp
    simp [dirty, hp]
  · intro e cv d hp
    have hlt : p < s.heap.length := (List.getElem?_eq_some.1 hp).1
    refine ⟨?_, ?_, ?_, ?_⟩
    · simp [dirty, hp, List.getElem?_set, hlt]
    · intro q hq
      simp [dirty, hp, List.getElem?_set, Ne.symm hq]
    · simp [dirty, hp]
    · simp [dirty, hp]
  · cases hp : s.heap[p]? with
    | none => simp [dirty, hp]
    | some n =>
      have hlt : p < s.heap.length := (List.getElem?_eq_some.1 hp).1
      cases n with
      | constant value => simp [dirty, hp]
      | addition l r => simp [dirty, hp]
      | cache e cv d => simp [dirty, hp, List.getElem?_set, hlt]

/-- C9, on a clean cache holding 5 over the Constant 5: `dirty()` on the cache
marks it dirty and keeps the 5, and `dirty()` on the Constant changes
nothing. -/
theorem dirty_effect_witness :
    (dirty ⟨[Node.constant (Value.number (5 : Int)), Node.cache 0 (Value.number 5) false], []⟩
        1).heap[1]? = some (Node.cache 0 (Value.number 5) true) ∧
    dirty ⟨[Node.constant (Value.number (5 : Int)), Node.cache 0 (Value.number 5) false], []⟩ 0
      = ⟨[Node.constant (Value.number (5 : Int)), Node.cache 0 (Value.number 5) false], []⟩ :=
  ⟨((dirty_effect ⟨[Node.constant (Value.number (5 : Int)),
        Node.cache 0 (Value.number 5) false], []⟩ 1).2.2.1 0 (Value.number 5) false rfl).1,
    (dirty_effect ⟨[Node.constant (Value.number (5 : Int)),
        Node.cache 0 (Value.number 5) false], []⟩ 0).1 (Value.number 5) rfl⟩

/-! ## Dependencies: removal of an absent edge, repeated insertion -/

theorem Dependencies.remove_of_not_mem (g : Dependencies) (A B : EId)
    (hf : (A, B) ∉ g.edges) (hb : (B, A) ∉ g.edgesBack) : g.remove A B = some g := by
  have h1 : Dependencies.eraseLoop g.edges A B = some g.edges := by
    unfold Dependencies.eraseLoop
    rw [if_neg]
    intro hm
    rcases Multiset.mem_map.1 hm with ⟨x, hx, hxe⟩
    rcases Multiset.mem_filter.1 hx with ⟨hx1, hx2⟩
    apply hf
    have : x = (A, B) := Prod.ext hx2 hxe
    rw [← this]
    exact hx1
  have h2 : Dependencies.eraseLoop g.edgesBack B A = some g.edgesBack := by
    unfold Dependencies.eraseLoop
    rw [if_neg]
    intro hm
    rcases Multiset.mem_map.1 hm with ⟨x, hx, hxe⟩
    rcases Multiset.mem_filter.1 hx with ⟨hx1, hx2⟩
    apply hb
    have : x = (B, A) := Prod.ext hx2 hxe
    rw [← this]
    exact hx1
  simp [Dependencies.remove, h1, h2]

/-- C11, evaluated on the graph built by `add(1, 0)`: the edge `(0, 1)` was
never added, yet `remove(0, 1)` does not return the graph as it was; its
second loop finds the entry `(1, 0)` in `edgesBack.equal_range(1)`, erases it
and increments the erased iterator, and the behaviour is undefined. -/
theorem remove_absent_edge_with_reverse :
    ¬ (Dependencies.empty.add 1 0).Edge 0 1 ∧
    (Dependencies.empty.add 1 0).Edge 1 0 ∧
    (Dependencies.empty.add 1 0).remove 0 1 = none ∧
    (Dependencies.empty.add 1 0).remove 0 1 ≠ some (Dependencies.empty.add 1 0) := by
  decide

/-- C12 as stated fails: after `add(0, 1)` a second `add(0, 1)` changes the
state, and 1 is then listed twice among the dependencies of 0. -/
theorem add_twice_duplicates :
    (Dependencies.empty.add 0 1).Edge 0 1 ∧
    (Dependencies.empty.add 0 1).add 0 1 ≠ Dependencies.empty.add 0 1 ∧
    ((Dependencies.empty.add 0 1).add 0 1).dependenciesOf 0 = {1, 1} := by
  decide

/-- C12, amended: `add` makes no check for an existing edge.  For every state
`g`, also one that already contains the edge `(A, B)`, after `add(A, B)` the
forward index holds the entry `(A, B)` one more time than before, so `B`
occurs one more time among the dependencies of `A`. -/
theorem add_inserts_one_more (g : Dependencies) (A B : EId) :
    (g.add A B).edges.count (A, B) = g.edges.count (A, B) + 1 ∧
    ((g.add A B).dependenciesOf A).count B = (g.dependenciesOf A).count B + 1 := by
  refine ⟨?_, ?_⟩
  · simp [Dependencies.add]
  · simp [Dependencies.dependenciesOf, Dependencies.add, equal_range]

/-! ## Value: addition and rendering -/

/-- C13 as stated fails: `Number(2) + Text("b")` returns a Value, the left
operand `Number(2)`, and a pairing with a Boolean returns the left operand
too. -/
theorem add_number_text_returns_left :
    (Value.number (2 : Int)).add (Value.text "b") = Value.number 2 ∧
    (Value.boolean true : Value Int).add (Value.number 2) = Value.boolean true := by
  decide

/-- C13, amended: for every pair of Values `a` and `b` whose variants are not
both Number and not both Text, `a + b` returns the left operand `a`; no
failure is raised. -/
theorem add_mismatch_returns_left [DoubleOps D] (a b : Value D)
    (hnumber : ¬ (a.index = 0 ∧ b.index = 0)) (htext : ¬ (a.index = 1 ∧ b.index = 1)) :
    a.add b = a := by
  cases a <;> cases b <;> simp [Value.index] at hnumber htext <;> rfl

/-- C13, amended, at `Number(2) + Text("b")`. -/
theorem add_mismatch_returns_left_witness :
    ¬ ((Value.number (2 : Int)).index = 0 ∧ (Value.text "b" : Value Int).index = 0) ∧
    (Value.number (2 : Int)).add (Value.text "b") = Value.number 2 :=
  ⟨by decide,
    add_mismatch_returns_left (Value.number (2 : Int)) (Value.text "b") (by decide)
      (by decide)⟩

/-- C14: the sum of two Numbers is the Number holding the sum of the two
doubles, and the sum of two Texts is the Text holding the first string
followed by the second; 2 + 3 gives Number 5 and "a" + "b" gives Text "ab". -/
theorem add_same_variant [DoubleOps D] (a b : D) (s t : String) :
    (Value.number a).add (Value.number b) = Value.number (DoubleOps.add a b) ∧
    (Value.text s : Value D).add (Value.text t) = Value.text (s ++ t) ∧
    (Value.number (2 : Int)).add (Value.number 3) = Value.number 5 ∧
    (Value.text "a" : Value Int).add (Value.text "b") = Value.text "ab" :=
  ⟨rfl, rfl, by decide, by decide⟩

/-- C17: `toString()` renders a Text as its own string, the Boolean `true` as
"TRUE" and the Boolean `false` as "FALSE". -/
theorem toString_text_boolean [DoubleOps D] (s : String) :
    (Value.text s : Value D).toString = s ∧
    (Value.boolean true : Value D).toString = "TRUE" ∧
    (Value.boolean false : Value D).toString = "FALSE" :=
  ⟨rfl, rfl, rfl⟩

/-! ## Constant -/

/-- C15: a Constant constructed from `v` evaluates to `v`; whatever a Constant
holds, after `setValue(w)` it holds `w` and evaluates to `w`; and `eval()`
leaves the heap, hence the held value, as it is. -/
theorem constant_eval_setValue [DoubleOps D] (fuel : Nat) (s : State D) (c : Ptr)
    (v w : Value D) (hc : s.heap[c]? = some (Node.constant v)) :
    eval (fuel + 1) ⟨s.heap ++ [Node.newConstant w], s.evals⟩ s.heap.length
      = some (w, ⟨s.heap ++ [Node.newConstant w], s.evals ++ [s.heap.length]⟩) ∧
    eval (fuel + 1) s c = some (v, ⟨s.heap, s.evals ++ [c]⟩) ∧
    (setValue s c w).heap[c]? = some (Node.constant w) ∧
    eval (fuel + 1) (setValue s c w) c
      = some (w, ⟨(setValue s c w).heap, (setValue s c w).evals ++ [c]⟩) := by
  have hlt : c < s.heap.length := (List.getElem?_eq_some.1 hc).1
  have hset : (setValue s c w).heap[c]? = some (Node.constant w) := by
    simp [setValue, hc, List.getElem?_set, hlt]
  refine ⟨?_, ?_, hset, ?_⟩
  · simp [eval, Node.newConstant]
  · simp [eval, hc]
  · simp [eval, hset]

/-- C15, on the Constant 5 set to the Text "a". -/
theorem constant_eval_setValue_witness :
    eval 1 ⟨[Node.constant (Value.number (5 : Int))], []⟩ 0
      = some (Value.number 5, ⟨[Node.constant (Value.number 5)], [0]⟩) ∧
    eval 1 (setValue ⟨[Node.constant (Value.number (5 : Int))], []⟩ 0 (Value.text "a")) 0
      = some (Value.text "a",
          ⟨(setValue ⟨[Node.constant (Value.number (5 : Int))], []⟩ 0 (Value.text "a")).heap,
            (setValue ⟨[Node.constant (Value.number (5 : Int))], []⟩ 0
              (Value.text "a")).evals ++ [0]⟩) :=
  ⟨(constant_eval_setValue 0 ⟨[Node.constant (Value.number (5 : Int))], []⟩ 0
      (Value.number 5) (Value.text "a") rfl).2.1,
    (constant_eval_setValue 0 ⟨[Node.constant (Value.number (5 : Int))], []⟩ 0
      (Value.number 5) (Value.text "a") rfl).2.2.2⟩

/-- C20, evaluated: a default-constructed Constant holds the Boolean `true`
and renders as "TRUE", while a default-constructed Value is the empty Text
and renders as the empty string. -/
theorem default_constant_renders_TRUE :
    (eval 1 ⟨[(Node.newConstantDefault : Node Int)], []⟩ 0).map (fun r => r.1)
      = some (Value.boolean true) ∧
    (eval 1 ⟨[(Node.newConstantDefault : Node Int)], []⟩ 0).map (fun r => r.1.toString)
      = some "TRUE" ∧
    (Value.default : Value Int) = Value.text "" ∧
    (Value.default : Value Int).toString = "" := by
  decide

/-! ## Addition -/

/-- C19, evaluated on the Addition of the Constants 1 and 2 (objects 0 and 1)
with `setRight` called for the Constant 10 (object 2): the Addition then has
10 as its left operand and 2 still as its right operand, and evaluates to 12
instead of 1 + 10. -/
theorem setRight_replaces_left :
    (setRight ⟨[Node.newConstant (Value.number (1 : Int)), Node.newConstant (Value.number 2),
        Node.newConstant (Value.number 10), Node.newAddition 0 1], []⟩ 3 2).heap[3]?
      = some (Node.addition 2 1) ∧
    (eval 2 (setRight ⟨[Node.newConstant (Value.number (1 : Int)),
        Node.newConstant (Value.number 2), Node.newConstant (Value.number 10),
        Node.newAddition 0 1], []⟩ 3 2) 3).map (fun r => r.1)
      = some (Value.number 12) := by
  decide

/-! ## ExpressionManager -/

theorem ExpressionManager.lt_fresh (m : ExpressionManager) :
    ∀ x ∈ m.expressions, x.1 < m.fresh := by
  unfold ExpressionManager.fresh
  generalize m.expressions = l
  induction l with
  | nil => intro x hx; simp at hx
  | cons a l ih =>
    intro x hx
    simp only [List.map_cons, List.foldr_cons]
    rcases List.mem_cons.1 hx with rfl | hx
    · exact Nat.lt_of_lt_of_le (Nat.lt_succ_self _) (Nat.le_max_left _ _)
    · exact Nat.lt_of_lt_of_le (ih x hx) (Nat.le_max_right _ _)

theorem ExpressionManager.deref_fresh (m : ExpressionManager) : m.deref m.fresh = none := by
  unfold ExpressionManager.deref
  rw [Option.map_eq_none', List.find?_eq_none]
  intro x hx
  have hlt := m.lt_fresh x hx
  simp only [beq_iff_eq]
  exact Nat.ne_of_lt hlt

/-- C16: `add(e)` returns a handle that no element of the list had before the
call, hence one different from every live handle; the new handle resolves to
`e`; and every handle that resolved before the call resolves to the same
expression after it. -/
theorem manager_add_fresh (m : ExpressionManager) (e : Ptr) :
    (m.add e).1 ∉ m.expressions.map Prod.fst ∧
    m.deref (m.add e).1 = none ∧
    (m.add e).2.deref (m.add e).1 = some e ∧
    (∀ (id : EId) (p : Ptr), m.deref id = some p → (m.add e).2.deref id = some p) ∧
    (∀ id : EId, id ∈ m.expressions.map Prod.fst →
      id ∈ (m.add e).2.expressions.map Prod.fst ∧ id ≠ (m.add e).1) := by
  have hfresh := m.deref_fresh
  have hlt := m.lt_fresh
  refine ⟨?_, hfresh, ?_, ?_, ?_⟩
  · intro hmem
    rcases List.mem_map.1 hmem with ⟨x, hx, hxe⟩
    have hx' := hlt x hx
    simp only [ExpressionManager.add] at hxe
    rw [hxe] at hx'
    exact Nat.lt_irrefl _ hx'
  · unfold ExpressionManager.deref at hfresh ⊢
    rw [Option.map_eq_none'] at hfresh
    simp only [ExpressionManager.add, List.find?_append, hfresh]
    simp
  · intro id p hp
    unfold ExpressionManager.deref at hp ⊢
    simp only [ExpressionManager.add, List.find?_append]
    cases hf : m.expressions.find? (fun x => x.1 == id) with
    | none => simp [hf] at hp
    | some x =>
      rw [hf] at hp
      simpa using hp
  · intro id hid
    refine ⟨?_, ?_⟩
    · simp only [ExpressionManager.add, List.map_append, List.mem_append]
      exact Or.inl hid
    · rcases List.mem_map.1 hid with ⟨x, hx, hxe⟩
      have hx' := hlt x hx
      simp only [ExpressionManager.add]
      rw [hxe] at hx'
      exact Nat.ne_of_lt hx'

/-- C16, on the manager of the scenario: the handle 0 is live and resolves to
object 0 before and after a further `add`. -/
theorem manager_add_fresh_witness :
    scenarioManager.deref 0 = some 0 ∧ (scenarioManager.add 7).2.deref 0 = some 0 :=
  ⟨by decide, (manager_add_fresh scenarioManager 7).2.2.2.1 0 0 (by decide)⟩

/-! ## DirtyFinder: the membership check -/

/-- C18: whatever the dependencies and the handles passed in, a `DirtyFinder`
whose `dirty` set is empty keeps it empty on `Eval`, so the set is empty after
`Eval` over any range; `EvalChange::change` then calls no `eval()` and returns
with the state it was given, every Constant and every cache as before and the
log of evaluations unchanged. -/
theorem dirtyFinder_never_admits [DoubleOps D] (dependencies : Dependencies) (ids : List EId)
    (fuel : Nat) (m : ExpressionManager) (s : State D) :
    (∀ id : EId, ((DirtyFinder.new dependencies).Eval id).dirty = []) ∧
    ((DirtyFinder.new dependencies).EvalRange ids).affected = [] ∧
    change fuel dependencies m ids s = some s := by
  refine ⟨fun id => ?_, ?_, change_eq fuel dependencies m ids s⟩
  · rw [DirtyFinder.Eval_eq]; rfl
  · rw [DirtyFinder.EvalRange_eq]; rfl

end Excel
